import Mathlib

set_option maxRecDepth 10000

/-!
Verification development for the resilient context-delivery client of
`hooks/library/user_prompt_context_saver.py`.

Strings are modelled as lists of Unicode code points (`List Nat`), byte
strings as lists of byte values (`List Nat`, each < 256 for well-formed
input).  Async delivery loops are modelled as pure functions producing an
event trace (transport constructions, remote invokes, backoff sleeps)
together with an `Except` result; the behaviour of the external transport
and remote service is a parameter of each model.
-/

namespace ContextSaver

/-! ## UTF-8 codec (models the Python str.encode and bytes.decode utf-8 codec)

The repository calls into the built-in strict UTF-8 codec of Python; these
two functions model that codec arithmetically.  `utf8EncodeChar` produces the
standard 1–4 byte encoding of a code point; the decoder is strict: it
rejects continuation-byte errors, truncated sequences, overlong forms,
surrogates and out-of-range values, exactly as the strict bytes.decode of
Python does. -/

def utf8EncodeChar (c : Nat) : List Nat :=
  if c < 0x80 then [c]
  else if c < 0x800 then [0xC0 + c / 0x40, 0x80 + c % 0x40]
  else if c < 0x10000 then
    [0xE0 + c / 0x1000, 0x80 + (c / 0x40) % 0x40, 0x80 + c % 0x40]
  else
    [0xF0 + c / 0x40000, 0x80 + (c / 0x1000) % 0x40, 0x80 + (c / 0x40) % 0x40,
      0x80 + c % 0x40]

def utf8Encode : List Nat → List Nat
  | [] => []
  | c :: rest => utf8EncodeChar c ++ utf8Encode rest

/-- Decode the first UTF-8 character of a byte list, returning the code point
and the number of bytes consumed; `none` on any malformed prefix.  Strict in
the same sense as Python: overlong encodings (computed code point below the
minimum for the length), surrogates and values above 0x10FFFF are rejected. -/
def utf8DecodeChar? : List Nat → Option (Nat × Nat)
  | [] => none
  | b0 :: rest =>
    if b0 < 0x80 then some (b0, 1)
    else if b0 < 0xC0 then none
    else if b0 < 0xE0 then
      match rest with
      | b1 :: _ =>
        if 0x80 ≤ b1 ∧ b1 < 0xC0 then
          let c := (b0 - 0xC0) * 0x40 + (b1 - 0x80)
          if 0x80 ≤ c then some (c, 2) else none
        else none
      | [] => none
    else if b0 < 0xF0 then
      match rest with
      | b1 :: b2 :: _ =>
        if (0x80 ≤ b1 ∧ b1 < 0xC0) ∧ (0x80 ≤ b2 ∧ b2 < 0xC0) then
          let c := (b0 - 0xE0) * 0x1000 + (b1 - 0x80) * 0x40 + (b2 - 0x80)
          if 0x800 ≤ c ∧ ¬(0xD800 ≤ c ∧ c < 0xE000) then some (c, 3) else none
        else none
      | _ => none
    else if b0 < 0xF8 then
      match rest with
      | b1 :: b2 :: b3 :: _ =>
        if (0x80 ≤ b1 ∧ b1 < 0xC0) ∧ (0x80 ≤ b2 ∧ b2 < 0xC0) ∧ (0x80 ≤ b3 ∧ b3 < 0xC0) then
          let c := (b0 - 0xF0) * 0x40000 + (b1 - 0x80) * 0x1000 + (b2 - 0x80) * 0x40
            + (b3 - 0x80)
          if 0x10000 ≤ c ∧ c < 0x110000 then some (c, 4) else none
        else none
      | _ => none
    else none

/-- Fuel-driven decode loop.  Every successful `utf8DecodeChar?` consumes at
least one byte, so fuel equal to the byte length (as supplied by
`utf8Decode?`) never runs out. -/
def utf8DecodeGo : Nat → List Nat → Option (List Nat)
  | _, [] => some []
  | 0, _ :: _ => none
  | fuel + 1, l =>
    match utf8DecodeChar? l with
    | some (c, n) => (utf8DecodeGo fuel (l.drop n)).map (fun s => c :: s)
    | none => none

def utf8Decode? (l : List Nat) : Option (List Nat) :=
  utf8DecodeGo l.length l

/-! ## Byte-safe chunker (`SyncMCPClient._chunk_text_by_bytes`) -/

/-- Source line 524: continuation bytes have pattern `10xxxxxx`
(`(b & 0xC0) == 0x80`). -/
def isContByte (b : Nat) : Bool :=
  (b &&& 0xC0) == 0x80

/-- Source lines 524–525: `while chunk_bytes and (chunk_bytes[-1] & 0xC0) == 0x80:
chunk_bytes = chunk_bytes[:-1]` — strip trailing continuation bytes. -/
def stripTrailingCont (l : List Nat) : List Nat :=
  (l.reverse.dropWhile isContByte).reverse

/-- Source lines 536–546: length of the UTF-8 character whose start byte is
`b`, with fallback 1 for malformed bytes. -/
def pyCharLen (b : Nat) : Nat :=
  if b &&& 0x80 = 0x00 then 1
  else if b &&& 0xE0 = 0xC0 then 2
  else if b &&& 0xF0 = 0xE0 then 3
  else if b &&& 0xF8 = 0xF0 then 4
  else 1

/-- One loop iteration of `chunk_bytes` selection (source lines 516–547), as a
function of the remaining byte suffix `rest` (`text_bytes[i:]`):
take up to `chunk_size` bytes; if that does not reach the end of the data,
strip trailing continuation bytes, and if nothing remains widen to the full
character starting at the current position. -/
def pickChunkBytes (chunkSize : Nat) (rest : List Nat) : List Nat :=
  let chunkBytes := rest.take chunkSize
  if chunkSize < rest.length then
    let stripped := stripTrailingCont chunkBytes
    if stripped.isEmpty then
      match rest with
      | [] => []
      | b :: _ => rest.take (pyCharLen b)
    else stripped
  else chunkBytes

/-- The chunking loop (source lines 514–564) over the byte suffix.  On a
successful decode the decoded chunk is appended and `i` advances by the
chunk byte length; on a `UnicodeDecodeError` the byte at `i` is skipped
(`i += 1; continue`).  Each iteration consumes at least one byte, so fuel
equal to the total byte length (as supplied by `chunkTextByBytes`) never
runs out. -/
def chunkGo (chunkSize : Nat) : Nat → List Nat → List (List Nat)
  | _, [] => []
  | 0, _ :: _ => []
  | fuel + 1, rest =>
    let cb := pickChunkBytes chunkSize rest
    match utf8Decode? cb with
    | some s => s :: chunkGo chunkSize fuel (rest.drop cb.length)
    | none => chunkGo chunkSize fuel (rest.drop 1)

/-- Model of `SyncMCPClient._chunk_text_by_bytes` (source lines 484–566): split text
into chunks based on byte size.  Chunks are returned as decoded strings
(code-point lists), exactly as the Python returns `list[str]`. -/
def chunkTextByBytes (text : List Nat) (chunkSize : Nat) : List (List Nat) :=
  if text.isEmpty then []
  else
    let textBytes := utf8Encode text
    chunkGo chunkSize textBytes.length textBytes

/-- Concatenation of chunk texts, in order (the join of the chunks). -/
def concatTexts : List (List Nat) → List Nat
  | [] => []
  | c :: rest => c ++ concatTexts rest

/-! ## Line-ending normalization

Source lines 628, 838, 1015: text.replace(CR LF, LF).replace(CR, LF). -/

/-- Left-to-right, non-overlapping replacement of the two-character sequence
CR LF by LF (the first str.replace call). -/
def replaceCRLF : List Nat → List Nat
  | 13 :: 10 :: rest => 10 :: replaceCRLF rest
  | c :: rest => c :: replaceCRLF rest
  | [] => []

/-- Replacement of every remaining CR by LF (the second str.replace call). -/
def replaceCR (l : List Nat) : List Nat :=
  l.map (fun c => if c = 13 then 10 else c)

def normalizeText (l : List Nat) : List Nat :=
  replaceCR (replaceCRLF l)

/-! ## Message size (`_calculate_message_size`, source lines 469–482)

json.dumps applied to the dict with keys thread_id, source, text, with
default options (ensure_ascii true, comma-space and colon-space separators,
insertion key order)
yields a pure-ASCII string, so its UTF-8 byte length equals its character
count: 37 fixed characters (braces, the three quoted key names, colons and
separators) plus the three serialized string literals. -/

/-- Characters contributed to the JSON output by one code point of a string
value under `json.dumps` defaults: `"` and `\` escape to two characters, as
do BS HT LF FF CR; other control characters become `\uXXXX`; printable
ASCII stands for itself; all other code points are escaped per UTF-16 code
unit (`\uXXXX`, or a surrogate pair for astral characters). -/
def jsonEscapedLen (c : Nat) : Nat :=
  if c = 0x22 ∨ c = 0x5C then 2
  else if c = 0x08 ∨ c = 0x09 ∨ c = 0x0A ∨ c = 0x0C ∨ c = 0x0D then 2
  else if c < 0x20 then 6
  else if c ≤ 0x7E then 1
  else if c < 0x10000 then 6
  else 12

def jsonStringLen (s : List Nat) : Nat :=
  2 + (s.map jsonEscapedLen).sum

/-- Model of `_calculate_message_size` over the three envelope fields. -/
def calculateMessageSize (threadId source text : List Nat) : Nat :=
  37 + jsonStringLen threadId + jsonStringLen source + jsonStringLen text

/-! ## Backoff policy

Both retry loops compute their delay as `base * 2**attempt` with a 0-indexed
attempt: source line 665 (`backoff_delay = 1.0 * (2**attempt)`, connection
level), line 857 (`backoff = chunk_retry_delay * (2**chunk_attempt)`, chunk
level), and lines 912 and 1126 (again base 1.0). -/

def delay_for (attempt : Nat) (base : ℚ) : ℚ :=
  base * 2 ^ attempt

/-! ## Delivery model: events, errors, results

Each async delivery routine is modelled as a pure function from external
behaviour (does connecting succeed on attempt `n`? does the remote invoke
succeed?) to an event trace plus an `Except` result.  One
`ConnEvent.construct` stands for one transport-session construction
(`StdioTransport(...)` plus entering `Client(transport)`, or one
`StreamableHttpTransport`); `ConnEvent.invoke` records the `text` and
`metadata` parameters of one call_tool invocation of the remote
store_context operation; `ConnEvent.sleep` records one `asyncio.sleep` backoff. -/

/-- The per-chunk metadata dict built at source lines 823–829. -/
structure ChunkMeta where
  chunk : Nat
  total_chunks : Nat
  chunk_size_chars : Nat
  chunk_size_bytes : Nat
  is_chunked : Bool
deriving DecidableEq, Repr

inductive ConnEvent
  | construct
  | invoke (text : List Nat) (metadata : Option ChunkMeta)
  | sleep (d : ℚ)
deriving DecidableEq, Repr

/-- Failure kinds surfaced by a delivery attempt: `timeoutErr` models
`TimeoutError` from `asyncio.timeout`, `transportErr` any transport-level
exception, `toolErr` a remote tool error, and `runtimeExhausted` the
`RuntimeError` raised when retries are exhausted with no recorded error. -/
inductive MCPErr
  | timeoutErr
  | transportErr
  | toolErr
  | runtimeExhausted
deriving DecidableEq, Repr

def constructCount (evts : List ConnEvent) : Nat :=
  (evts.filter (fun e => e = ConnEvent.construct)).length

/-- One entry of the `results` list of chunked storage: a successful server
response (source line 848), or the error dict carrying the chunk number
(source line 874). -/
inductive ChunkRes
  | ok
  | err (chunkNum : Nat)
deriving DecidableEq, Repr

def ChunkRes.isOkRes : ChunkRes → Bool
  | .ok => true
  | .err _ => false

def ChunkRes.chunkNumOf : ChunkRes → Option Nat
  | .ok => none
  | .err n => some n

/-- The summary dict returned at source lines 886–895. -/
structure ChunkedOutcome where
  success : Bool
  chunked : Bool
  total_chunks : Nat
  chunks_stored : Nat
  chunks_failed : Nat
  total_bytes : Nat
  results : List ChunkRes
  failed_chunk_numbers : List Nat
deriving DecidableEq, Repr

/-- Build the summary dict from the per-chunk results (source lines 877–895):
`successful_chunks` / `failed_chunks` partition `results` by presence of the
error key, and `failed_chunk_numbers` lists the chunk numbers of the failed
entries in order. -/
def mkChunkedOutcome (results : List ChunkRes) (totalChunks totalBytes : Nat) :
    ChunkedOutcome :=
  let failed := results.filter (fun r => !r.isOkRes)
  { success := failed.length = 0
    chunked := true
    total_chunks := totalChunks
    chunks_stored := (results.filter (fun r => r.isOkRes)).length
    chunks_failed := failed.length
    total_bytes := totalBytes
    results := results
    failed_chunk_numbers := failed.filterMap ChunkRes.chunkNumOf }

/-! ## Chunked mode (`_store_chunks_single_connection`, source lines 747–925) -/

/-- The per-chunk retry loop (source lines 835–869): up to `maxChunkRetries`
invokes of the same chunk over the already-open session, with
`delay_for(chunk_attempt, chunk_retry_delay)` sleeps between attempts and no
sleep after the last.  `beh attempt` tells whether the invoke at that
0-indexed attempt succeeds.  Returns the attempt events and the final
`chunk_stored` flag.  Structural fuel `remaining` starts at
`maxChunkRetries`, matching `range(max_chunk_retries)`. -/
def chunkAttemptEvents (beh : Nat → Bool) (text : List Nat) (meta : ChunkMeta)
    (chunkRetryDelay : ℚ) (maxChunkRetries : Nat) :
    Nat → Nat → List ConnEvent × Bool
  | 0, _ => ([], false)
  | remaining + 1, attempt =>
    if beh attempt then ([ConnEvent.invoke text (some meta)], true)
    else
      ((ConnEvent.invoke text (some meta) ::
          (if attempt < maxChunkRetries - 1 then
            [ConnEvent.sleep (delay_for attempt chunkRetryDelay)]
          else [])) ++
        (chunkAttemptEvents beh text meta chunkRetryDelay maxChunkRetries
          remaining (attempt + 1)).1,
      (chunkAttemptEvents beh text meta chunkRetryDelay maxChunkRetries
        remaining (attempt + 1)).2)

/-- The `for idx, chunk in enumerate(chunks)` loop (source lines 814–875)
inside one open session: each chunk is normalized, tagged with its metadata,
attempted with per-chunk retries, and contributes exactly one entry to
`results` (its server response on success, an error dict on exhaustion).
`chunkBeh n attempt` gives the outcome of the invoke of 1-based chunk `n` at
0-indexed attempt `attempt`. -/
def processChunksGo (chunkBeh : Nat → Nat → Bool) (total maxChunkRetries : Nat)
    (chunkRetryDelay : ℚ) : List (List Nat) → Nat → List ConnEvent × List ChunkRes
  | [], _ => ([], [])
  | chunk :: rest, idx =>
    let chunkNum := idx + 1
    let meta : ChunkMeta :=
      { chunk := chunkNum
        total_chunks := total
        chunk_size_chars := chunk.length
        chunk_size_bytes := (utf8Encode chunk).length
        is_chunked := true }
    ((chunkAttemptEvents (chunkBeh chunkNum) (normalizeText chunk) meta
        chunkRetryDelay maxChunkRetries maxChunkRetries 0).1 ++
      (processChunksGo chunkBeh total maxChunkRetries chunkRetryDelay rest
        (idx + 1)).1,
    (if (chunkAttemptEvents (chunkBeh chunkNum) (normalizeText chunk) meta
          chunkRetryDelay maxChunkRetries maxChunkRetries 0).2 then
        ChunkRes.ok
      else ChunkRes.err chunkNum) ::
      (processChunksGo chunkBeh total maxChunkRetries chunkRetryDelay rest
        (idx + 1)).2)

/-- The connection-attempt loop of chunked storage (source lines 799–925).
`sessionBeh attempt = none` means the session (transport construction plus
client connect) opens on that attempt; `some e` that it fails with `e`.
Once a session is open every chunk is processed through it and the summary
is returned — chunk failures are recovered into the summary and never abort
the session.  Session failures sleep `delay_for(conn_attempt, 1.0)` (except
after the last attempt) and retry; exhaustion raises the last recorded
error. -/
def storeChunksGo (sessionBeh : Nat → Option MCPErr) (chunkBeh : Nat → Nat → Bool)
    (chunks : List (List Nat)) (totalBytes maxConnRetries maxChunkRetries : Nat)
    (chunkRetryDelay : ℚ) :
    Nat → Nat → Option MCPErr → List ConnEvent × Except MCPErr ChunkedOutcome
  | 0, _, lastErr => ([], .error (lastErr.getD MCPErr.runtimeExhausted))
  | remaining + 1, attempt, _ =>
    match sessionBeh attempt with
    | none =>
      (ConnEvent.construct ::
        (processChunksGo chunkBeh chunks.length maxChunkRetries chunkRetryDelay
          chunks 0).1,
      .ok (mkChunkedOutcome
        (processChunksGo chunkBeh chunks.length maxChunkRetries chunkRetryDelay
          chunks 0).2
        chunks.length totalBytes))
    | some e =>
      (ConnEvent.construct ::
        ((if attempt < maxConnRetries - 1 then
            [ConnEvent.sleep (delay_for attempt 1)]
          else []) ++
          (storeChunksGo sessionBeh chunkBeh chunks totalBytes maxConnRetries
            maxChunkRetries chunkRetryDelay remaining (attempt + 1) (some e)).1),
      (storeChunksGo sessionBeh chunkBeh chunks totalBytes maxConnRetries
        maxChunkRetries chunkRetryDelay remaining (attempt + 1) (some e)).2)

/-- Model of `SyncMCPClient._store_chunks_single_connection`.  `threadId` and `source`
are carried for signature fidelity; the claims only observe the `text` and
`metadata` parameters of each invoke, which is what the trace records. -/
def storeChunksSingleConnection (sessionBeh : Nat → Option MCPErr)
    (chunkBeh : Nat → Nat → Bool) (threadId source : List Nat)
    (chunks : List (List Nat)) (totalBytes maxConnRetries maxChunkRetries : Nat)
    (chunkRetryDelay : ℚ) : List ConnEvent × Except MCPErr ChunkedOutcome :=
  storeChunksGo sessionBeh chunkBeh chunks totalBytes maxConnRetries
    maxChunkRetries chunkRetryDelay maxConnRetries 0 none

/-! ## Single-message mode (`_store_single_context_async`, source lines 568–678) -/

/-- The connection-attempt loop of single-message storage.  Each attempt
constructs a fresh transport (`construct`); if connecting succeeds
(`connectBeh attempt = none`) the normalized text is sent in one invoke, and
failure of either stage records the error, sleeps `delay_for(attempt, 1.0)`
(except after the last attempt) and retries with a brand-new transport.
Exhaustion raises the last recorded error (`RuntimeError` if none). -/
def storeSingleGo {α : Type} (connectBeh : Nat → Option MCPErr)
    (invokeBeh : Nat → Except MCPErr α) (text : List Nat)
    (metadata : Option ChunkMeta) (maxRetries : Nat) :
    Nat → Nat → Option MCPErr → List ConnEvent × Except MCPErr α
  | 0, _, lastErr => ([], .error (lastErr.getD MCPErr.runtimeExhausted))
  | remaining + 1, attempt, _ =>
    match connectBeh attempt with
    | some e =>
      (ConnEvent.construct ::
        ((if attempt < maxRetries - 1 then
            [ConnEvent.sleep (delay_for attempt 1)]
          else []) ++
          (storeSingleGo connectBeh invokeBeh text metadata maxRetries remaining
            (attempt + 1) (some e)).1),
      (storeSingleGo connectBeh invokeBeh text metadata maxRetries remaining
        (attempt + 1) (some e)).2)
    | none =>
      match invokeBeh attempt with
      | .ok resp =>
        ([ConnEvent.construct, ConnEvent.invoke (normalizeText text) metadata],
          .ok resp)
      | .error e =>
        (ConnEvent.construct :: ConnEvent.invoke (normalizeText text) metadata ::
          ((if attempt < maxRetries - 1 then
              [ConnEvent.sleep (delay_for attempt 1)]
            else []) ++
            (storeSingleGo connectBeh invokeBeh text metadata maxRetries remaining
              (attempt + 1) (some e)).1),
        (storeSingleGo connectBeh invokeBeh text metadata maxRetries remaining
          (attempt + 1) (some e)).2)

/-- Model of `SyncMCPClient._store_single_context_async` (the dispatcher calls it with
`metadata = none`; the `metadata` parameter mirrors source line 573). -/
def storeSingleContext {α : Type} (connectBeh : Nat → Option MCPErr)
    (invokeBeh : Nat → Except MCPErr α) (threadId source text : List Nat)
    (metadata : Option ChunkMeta) (maxRetries : Nat) :
    List ConnEvent × Except MCPErr α :=
  storeSingleGo connectBeh invokeBeh text metadata maxRetries maxRetries 0 none

/-! ## Dispatcher (`_store_context_async`, source lines 680–745) -/

/-- The value returned to the synchronous caller: on the single-message path
this is the raw server response (no `chunked` key), on the chunked path the
summary dict. -/
inductive DeliveryResult (α : Type)
  | single (resp : α)
  | chunked (outcome : ChunkedOutcome)
deriving DecidableEq

/-- The result.get chunked lookup performed by the caller with default
False (source line 1570): a single
server response has no `chunked` key, so the default `False` applies. -/
def chunkedFlag {α : Type} : DeliveryResult α → Bool
  | .single _ => false
  | .chunked o => o.chunked

/-- Model of `SyncMCPClient._store_context_async`: measure the serialized message
size; within the limit, send single-shot; otherwise chunk the text with
`chunkTextByBytes` and delegate everything to the single-connection chunked
path. -/
def storeContextAsync {α : Type} (connectBeh : Nat → Option MCPErr)
    (invokeBeh : Nat → Except MCPErr α) (sessionBeh : Nat → Option MCPErr)
    (chunkBeh : Nat → Nat → Bool) (threadId source text : List Nat)
    (maxMessageSize chunkSize maxConnRetries maxChunkRetries : Nat)
    (chunkRetryDelay : ℚ) : List ConnEvent × Except MCPErr (DeliveryResult α) :=
  if calculateMessageSize threadId source text ≤ maxMessageSize then
    ((storeSingleContext connectBeh invokeBeh threadId source text none
        maxConnRetries).1,
      (storeSingleContext connectBeh invokeBeh threadId source text none
        maxConnRetries).2.map DeliveryResult.single)
  else
    ((storeChunksSingleConnection sessionBeh chunkBeh threadId source
        (chunkTextByBytes text chunkSize) (utf8Encode text).length
        maxConnRetries maxChunkRetries chunkRetryDelay).1,
      (storeChunksSingleConnection sessionBeh chunkBeh threadId source
        (chunkTextByBytes text chunkSize) (utf8Encode text).length
        maxConnRetries maxChunkRetries chunkRetryDelay).2.map
        DeliveryResult.chunked)

/-! ## HTTP client (`FastMCPHttpClient`, source lines 945–1159)

`FastMCPHttpClient.store_context` performs no size check and no chunking:
the text is normalized once, and every attempt sends the whole of it in a
single `store_context` invoke with no `metadata` parameter.  The structured
response of the server is returned as-is. -/

def httpStoreGo {α : Type} (connectBeh : Nat → Option MCPErr)
    (invokeBeh : Nat → Except MCPErr α) (normalizedText : List Nat)
    (maxRetries : Nat) : Nat → Nat → Option MCPErr → List ConnEvent × Except MCPErr α
  | 0, _, lastErr => ([], .error (lastErr.getD MCPErr.runtimeExhausted))
  | remaining + 1, attempt, _ =>
    match connectBeh attempt with
    | some e =>
      (ConnEvent.construct ::
        ((if attempt < maxRetries - 1 then
            [ConnEvent.sleep (delay_for attempt 1)]
          else []) ++
          (httpStoreGo connectBeh invokeBeh normalizedText maxRetries remaining
            (attempt + 1) (some e)).1),
      (httpStoreGo connectBeh invokeBeh normalizedText maxRetries remaining
        (attempt + 1) (some e)).2)
    | none =>
      match invokeBeh attempt with
      | .ok resp =>
        ([ConnEvent.construct, ConnEvent.invoke normalizedText none], .ok resp)
      | .error e =>
        (ConnEvent.construct :: ConnEvent.invoke normalizedText none ::
          ((if attempt < maxRetries - 1 then
              [ConnEvent.sleep (delay_for attempt 1)]
            else []) ++
            (httpStoreGo connectBeh invokeBeh normalizedText maxRetries remaining
              (attempt + 1) (some e)).1),
        (httpStoreGo connectBeh invokeBeh normalizedText maxRetries remaining
          (attempt + 1) (some e)).2)

/-- Model of `FastMCPHttpClient._store_context_async`: normalize once (source line
1015), then retry whole attempts up to `maxRetries`. -/
def httpStoreContext {α : Type} (connectBeh : Nat → Option MCPErr)
    (invokeBeh : Nat → Except MCPErr α) (text : List Nat) (maxRetries : Nat) :
    List ConnEvent × Except MCPErr α :=
  httpStoreGo connectBeh invokeBeh (normalizeText text) maxRetries maxRetries 0 none

/-! ## Client factory (`create_mcp_client`, source lines 1385–1430) -/

structure ServerCfg where
  transport : String
  url : Option String := none
  command : String := "uvx"
  pythonVersion : String := "3.12"
  package : String := "mcp-context-server<1.0.0"
  entryPoint : String := "mcp-context-server"
deriving DecidableEq

/-- The two `ValueError` raises of `create_mcp_client`: missing (or empty)
`mcp_server.url` with HTTP transport, and an unrecognized transport value. -/
inductive ConfigError
  | missingUrl
  | invalidTransport
deriving DecidableEq, Repr

inductive MCPClientKind
  | stdio (serverCommand : List String)
  | http (url : String)
deriving DecidableEq

/-- Model of `create_mcp_client`: pure configuration dispatch, raising before any
retry loop runs or any transport session is constructed.  On the stdio
branch, `create_mcp_client_with_retry` only builds a `SyncMCPClient` object
(whose constructor merely stores fields and cannot fail), so it is modelled
as directly returning the stdio client with the uvx command list of source
lines 1315–1322. -/
def create_mcp_client (cfg : ServerCfg) : Except ConfigError MCPClientKind :=
  if cfg.transport = "http" then
    match cfg.url with
    | none => .error ConfigError.missingUrl
    | some u =>
      if u = "" then .error ConfigError.missingUrl
      else .ok (MCPClientKind.http u)
  else if cfg.transport = "stdio" then
    .ok (MCPClientKind.stdio
      [cfg.command, "--python", cfg.pythonVersion, "--with", cfg.package,
        cfg.entryPoint])
  else .error ConfigError.invalidTransport

/-! ## Spec-side characterizations

These definitions follow the description in the spec of the observable outcome
(they are compared against the code model in the theorems, not derived from
the source). -/

/-- Spec-side: a chunk ends up stored exactly when some attempt among
`0 .. maxChunkRetries - 1` succeeds. -/
def specChunkStored (beh : Nat → Bool) (maxChunkRetries : Nat) : Bool :=
  (List.range maxChunkRetries).any beh

/-- Spec-side: the outcome the spec predicts for an established session —
one result per chunk, `ok` for chunks with a successful attempt and an
error entry carrying the 1-based chunk number otherwise. -/
def specChunkedOutcome (chunkBeh : Nat → Nat → Bool)
    (numChunks maxChunkRetries totalBytes : Nat) : ChunkedOutcome :=
  mkChunkedOutcome
    ((List.range' 1 numChunks).map (fun n =>
      if specChunkStored (chunkBeh n) maxChunkRetries then ChunkRes.ok
      else ChunkRes.err n))
    numChunks totalBytes

/-! ## Helper lemmas -/

theorem constructCount_append (l1 l2 : List ConnEvent) :
    constructCount (l1 ++ l2) = constructCount l1 + constructCount l2 := by
  simp [constructCount, List.filter_append]

theorem constructCount_sleepList (attempt : Nat) (c : Prop) [Decidable c] (d : ℚ) :
    constructCount (if c then [ConnEvent.sleep (delay_for attempt d)] else []) = 0 := by
  split <;> simp [constructCount]

theorem cr_not_mem_normalizeText (l : List Nat) : 13 ∉ normalizeText l := by
  intro h
  simp only [normalizeText, replaceCR, List.mem_map] at h
  obtain ⟨x, -, hx⟩ := h
  by_cases hx13 : x = 13
  · rw [if_pos hx13] at hx
    exact absurd hx (by decide)
  · rw [if_neg hx13] at hx
    exact hx13 hx

/-! ## C1 — chunk round-trip -/

/-- C1.  The claim states that for every string `s` and every
`max_chunk_bytes ≥ 4`, concatenating the chunks of
`_chunk_text_by_bytes(s, max_chunk_bytes)` reconstructs `s`.  The code
violates this: its boundary walk-back (source line 524) inspects the last
byte *inside* the window instead of the byte after it, so a window ending
after (or inside) a multi-byte character retains a dangling lead byte, the
chunk fails to decode, and the `i += 1` recovery path silently drops bytes.
Concretely, for the three-character text `U+00E9 U+00E9 U+00E9` (bytes
`C3 A9 C3 A9 C3 A9`) with `max_chunk_bytes = 4`, the code returns the single
chunk `U+00E9 U+00E9`, losing the first character. -/
theorem C1_chunk_roundtrip_violated :
    chunkTextByBytes [233, 233, 233] 4 = [[233, 233]] ∧
      concatTexts (chunkTextByBytes [233, 233, 233] 4) ≠ [233, 233, 233] := by
  decide

/-! ## C7 — backoff law -/

/-- C7.  Both retry loops compute their delay through `delay_for`, defined
as `base * 2 ^ attempt` with a 0-indexed attempt (connection level with base
1.0, chunk level with base `chunk_retry_delay`), and doubling holds:
`delay_for (n+1) base = 2 * delay_for n base` for every `n ≥ 0`. -/
theorem C7_backoff_law (n : Nat) (base : ℚ) :
    delay_for n base = base * 2 ^ n ∧
      delay_for (n + 1) base = 2 * delay_for n base := by
  refine ⟨rfl, ?_⟩
  simp only [delay_for, pow_succ]
  ring

/-! ## C9 — configuration errors fail fast -/

/-- C9.  Selecting the HTTP transport without a configured (non-empty) URL,
or selecting a transport other than `stdio`/`http`, makes client
construction return a configuration error immediately: `create_mcp_client`
is a pure dispatch that raises before any retry loop runs and before any
transport session is constructed. -/
theorem C9_config_fail_fast (cfg : ServerCfg) :
    (cfg.transport = "http" → (cfg.url = none ∨ cfg.url = some "") →
      create_mcp_client cfg = Except.error ConfigError.missingUrl) ∧
    (cfg.transport ≠ "stdio" → cfg.transport ≠ "http" →
      create_mcp_client cfg = Except.error ConfigError.invalidTransport) := by
  constructor
  · intro ht hu
    rcases hu with hu | hu <;> simp [create_mcp_client, ht, hu]
  · intro hs hh
    simp [create_mcp_client, hs, hh]

theorem C9_config_fail_fast_witness :
    create_mcp_client { transport := "http", url := none } =
        Except.error ConfigError.missingUrl ∧
      create_mcp_client { transport := "websocket" } =
        Except.error ConfigError.invalidTransport :=
  ⟨(C9_config_fail_fast _).1 rfl (Or.inl rfl),
    (C9_config_fail_fast _).2 (by decide) (by decide)⟩

/-! ## C5 — connection-retry exhaustion -/

/-- C5.  When every single-message connection attempt fails with a transport
error and `max_connection_retries = 3`, exactly three transport
constructions occur; the first attempt starts immediately and the later
attempts are preceded by backoff sleeps of `delay_for 0 1 = 1` second and
`delay_for 1 1 = 2` seconds (no sleep after the last attempt); afterwards
the last recorded error is raised to the caller. -/
theorem C5_connection_retry_exhaustion {α : Type} (connectBeh : Nat → Option MCPErr)
    (invokeBeh : Nat → Except MCPErr α) (threadId source text : List Nat)
    (metadata : Option ChunkMeta)
    (h : ∀ n, connectBeh n = some MCPErr.transportErr) :
    storeSingleContext connectBeh invokeBeh threadId source text metadata 3 =
        ([ConnEvent.construct, ConnEvent.sleep (delay_for 0 1),
          ConnEvent.construct, ConnEvent.sleep (delay_for 1 1),
          ConnEvent.construct], Except.error MCPErr.transportErr) ∧
      constructCount [ConnEvent.construct, ConnEvent.sleep (delay_for 0 1),
          ConnEvent.construct, ConnEvent.sleep (delay_for 1 1),
          ConnEvent.construct] = 3 ∧
      delay_for 0 1 = 1 ∧ delay_for 1 1 = 2 := by
  refine ⟨?_, by decide, by norm_num [delay_for], by norm_num [delay_for]⟩
  simp [storeSingleContext, storeSingleGo, h]

theorem C5_connection_retry_exhaustion_witness :
    storeSingleContext (fun _ => some MCPErr.transportErr)
        (fun _ => (Except.error MCPErr.transportErr : Except MCPErr Bool))
        [] [] [104, 105] none 3 =
      ([ConnEvent.construct, ConnEvent.sleep (delay_for 0 1),
        ConnEvent.construct, ConnEvent.sleep (delay_for 1 1),
        ConnEvent.construct], Except.error MCPErr.transportErr) :=
  (C5_connection_retry_exhaustion _ _ _ _ _ _ (fun _ => rfl)).1

/-! ## C10 — the HTTP transport never chunks -/

theorem httpStoreGo_invoke_mem {α : Type} (connectBeh : Nat → Option MCPErr)
    (invokeBeh : Nat → Except MCPErr α) (ntext : List Nat) (maxR : Nat) :
    ∀ remaining attempt lastErr t m,
      ConnEvent.invoke t m ∈
        (httpStoreGo connectBeh invokeBeh ntext maxR remaining attempt lastErr).1 →
      t = ntext ∧ m = none := by
  intro remaining
  induction remaining with
  | zero =>
    intro a le t m h
    simp [httpStoreGo] at h
  | succ r ih =>
    intro a le t m h
    simp only [httpStoreGo] at h
    cases hc : connectBeh a with
    | some e =>
      rw [hc] at h
      simp only [List.mem_cons, List.mem_append] at h
      rcases h with h | h
      · exact absurd h (by simp)
      rcases h with h | h
      · split at h <;> simp at h
      · exact ih (a + 1) (some e) t m h
    | none =>
      rw [hc] at h
      cases hi : invokeBeh a with
      | ok resp =>
        rw [hi] at h
        simp only [List.mem_cons, List.mem_singleton] at h
        rcases h with h | h | h
        · exact absurd h (by simp)
        · simp only [ConnEvent.invoke.injEq] at h
          exact ⟨h.1, h.2⟩
        · exact absurd h (by simp)
      | error e =>
        rw [hi] at h
        simp only [List.mem_cons, List.mem_append] at h
        rcases h with h | h
        · exact absurd h (by simp)
        rcases h with h | h
        · simp only [ConnEvent.invoke.injEq] at h
          exact ⟨h.1, h.2⟩
        rcases h with h | h
        · split at h <;> simp at h
        · exact ih (a + 1) (some e) t m h

/-- C10.  `FastMCPHttpClient.store_context` never chunks: for every input
text, regardless of size, every `store_context` invoke it issues carries the
entire normalized text and no chunk metadata (there is no size check and no
chunked mode on the HTTP path), and on a successful attempt the server
response is returned as-is, with no client-set
`chunked`/`total_chunks`/`chunks_failed` fields (the result type `α` is the
untouched server response). -/
theorem C10_http_never_chunks {α : Type} (connectBeh : Nat → Option MCPErr)
    (invokeBeh : Nat → Except MCPErr α) (text : List Nat) (maxRetries : Nat)
    (resp : α) :
    (∀ t m, ConnEvent.invoke t m ∈
        (httpStoreContext connectBeh invokeBeh text maxRetries).1 →
      t = normalizeText text ∧ m = none) ∧
    (0 < maxRetries → connectBeh 0 = none → invokeBeh 0 = Except.ok resp →
      httpStoreContext connectBeh invokeBeh text maxRetries =
        ([ConnEvent.construct, ConnEvent.invoke (normalizeText text) none],
          Except.ok resp)) := by
  constructor
  · intro t m h
    exact httpStoreGo_invoke_mem connectBeh invokeBeh (normalizeText text)
      maxRetries maxRetries 0 none t m h
  · intro hpos hc hi
    obtain ⟨r, rfl⟩ : ∃ r, maxRetries = r + 1 :=
      ⟨maxRetries - 1, by omega⟩
    simp [httpStoreContext, httpStoreGo, hc, hi]

theorem C10_http_never_chunks_witness :
    httpStoreContext (fun _ => none) (fun _ => (Except.ok 42 : Except MCPErr Nat))
        [97, 13, 10, 98] 3 =
      ([ConnEvent.construct, ConnEvent.invoke (normalizeText [97, 13, 10, 98]) none],
        Except.ok 42) :=
  (C10_http_never_chunks (fun _ => none)
    (fun _ => (Except.ok 42 : Except MCPErr Nat)) [97, 13, 10, 98] 3 42).2
    (by decide) rfl rfl

/-! ## C4 — size-based dispatch -/

/-- C4.  `store_context` measures the UTF-8 byte size of the serialized JSON
envelope `{thread_id, source, text}` via `calculateMessageSize`.  Within the
single-message limit it delivers single-shot: on a first-attempt success the
whole delivery is one transport construction and exactly one invoke, and the
result is a non-chunked outcome (`chunkedFlag = false`).  Above the limit it
splits the text with the configured chunk byte size and delegates to the
single-connection chunked mode. -/
theorem C4_size_dispatch {α : Type} (connectBeh : Nat → Option MCPErr)
    (invokeBeh : Nat → Except MCPErr α) (sessionBeh : Nat → Option MCPErr)
    (chunkBeh : Nat → Nat → Bool) (threadId source text : List Nat)
    (maxMessageSize chunkSize maxConnRetries maxChunkRetries : Nat)
    (chunkRetryDelay : ℚ) (resp : α) :
    (calculateMessageSize threadId source text ≤ maxMessageSize →
      0 < maxConnRetries → connectBeh 0 = none → invokeBeh 0 = Except.ok resp →
      storeContextAsync connectBeh invokeBeh sessionBeh chunkBeh threadId source
          text maxMessageSize chunkSize maxConnRetries maxChunkRetries
          chunkRetryDelay =
        ([ConnEvent.construct, ConnEvent.invoke (normalizeText text) none],
          Except.ok (DeliveryResult.single resp)) ∧
      chunkedFlag (DeliveryResult.single resp) = false) ∧
    (maxMessageSize < calculateMessageSize threadId source text →
      storeContextAsync connectBeh invokeBeh sessionBeh chunkBeh threadId source
          text maxMessageSize chunkSize maxConnRetries maxChunkRetries
          chunkRetryDelay =
        ((storeChunksSingleConnection sessionBeh chunkBeh threadId source
            (chunkTextByBytes text chunkSize) (utf8Encode text).length
            maxConnRetries maxChunkRetries chunkRetryDelay).1,
          (storeChunksSingleConnection sessionBeh chunkBeh threadId source
            (chunkTextByBytes text chunkSize) (utf8Encode text).length
            maxConnRetries maxChunkRetries chunkRetryDelay).2.map
            DeliveryResult.chunked)) := by
  constructor
  · intro hsize hpos hc hi
    obtain ⟨r, rfl⟩ : ∃ r, maxConnRetries = r + 1 :=
      ⟨maxConnRetries - 1, by omega⟩
    refine ⟨?_, rfl⟩
    simp [storeContextAsync, hsize, storeSingleContext, storeSingleGo, hc, hi,
      Except.map]
  · intro hsize
    have hgt : ¬ calculateMessageSize threadId source text ≤ maxMessageSize := by
      omega
    simp [storeContextAsync, hgt]

theorem C4_size_dispatch_witness :
    calculateMessageSize [116] [117, 115, 101, 114] (List.replicate 452 97) = 500 ∧
      storeContextAsync (fun _ => none)
          (fun _ => (Except.ok true : Except MCPErr Bool)) (fun _ => none)
          (fun _ _ => true) [116] [117, 115, 101, 114] (List.replicate 452 97)
          32768 30000 3 3 (1 / 2) =
        ([ConnEvent.construct,
          ConnEvent.invoke (normalizeText (List.replicate 452 97)) none],
          Except.ok (DeliveryResult.single true)) :=
  ⟨by decide,
    ((C4_size_dispatch (fun _ => none)
      (fun _ => (Except.ok true : Except MCPErr Bool)) (fun _ => none)
      (fun _ _ => true) [116] [117, 115, 101, 114] (List.replicate 452 97)
      32768 30000 3 3 (1 / 2) true).1 (by decide) (by decide) rfl rfl).1⟩

/-! ## C2 — single-session invariant -/

theorem constructCount_cons_construct (l : List ConnEvent) :
    constructCount (ConnEvent.construct :: l) = constructCount l + 1 := by
  simp [constructCount, List.filter_cons]

theorem constructCount_eq_zero_of (l : List ConnEvent)
    (h : ∀ e ∈ l, e ≠ ConnEvent.construct) : constructCount l = 0 := by
  have hf : l.filter (fun e => e = ConnEvent.construct) = [] := by
    rw [List.filter_eq_nil_iff]
    intro a ha
    simpa using h a ha
  simp [constructCount, hf]

theorem chunkAttemptEvents_no_construct (beh : Nat → Bool) (text : List Nat)
    (meta : ChunkMeta) (d : ℚ) (maxR : Nat) :
    ∀ remaining attempt,
      ∀ e ∈ (chunkAttemptEvents beh text meta d maxR remaining attempt).1,
        e ≠ ConnEvent.construct := by
  intro remaining
  induction remaining with
  | zero =>
    intro a e he
    simp [chunkAttemptEvents] at he
  | succ r ih =>
    intro a e he
    simp only [chunkAttemptEvents] at he
    split at he
    · simp only [List.mem_singleton] at he
      subst he
      simp
    · simp only [List.cons_append, List.mem_cons, List.mem_append] at he
      rcases he with rfl | he
      · simp
      rcases he with he | he
      · split at he
        · simp only [List.mem_singleton] at he
          subst he
          simp
        · simp at he
      · exact ih (a + 1) e he

theorem processChunksGo_no_construct (chunkBeh : Nat → Nat → Bool)
    (total maxR : Nat) (d : ℚ) :
    ∀ rest idx,
      ∀ e ∈ (processChunksGo chunkBeh total maxR d rest idx).1,
        e ≠ ConnEvent.construct := by
  intro rest
  induction rest with
  | nil =>
    intro idx e he
    simp [processChunksGo] at he
  | cons c t ih =>
    intro idx e he
    simp only [processChunksGo, List.mem_append] at he
    rcases he with he | he
    · exact chunkAttemptEvents_no_construct _ _ _ _ _ _ _ e he
    · exact ih (idx + 1) e he

theorem storeChunksGo_constructCount (sessionBeh : Nat → Option MCPErr)
    (chunkBeh : Nat → Nat → Bool) (chunks : List (List Nat))
    (totalBytes maxConn maxChunk : Nat) (d : ℚ) :
    ∀ j remaining attempt lastErr, j < remaining →
      (∀ k, k < j → sessionBeh (attempt + k) ≠ none) →
      sessionBeh (attempt + j) = none →
      constructCount (storeChunksGo sessionBeh chunkBeh chunks totalBytes
        maxConn maxChunk d remaining attempt lastErr).1 = j + 1 := by
  intro j
  induction j with
  | zero =>
    intro remaining attempt lastErr hlt hbefore hopen
    obtain ⟨r, rfl⟩ : ∃ r, remaining = r + 1 := ⟨remaining - 1, by omega⟩
    rw [Nat.add_zero] at hopen
    simp only [storeChunksGo, hopen]
    rw [constructCount_cons_construct,
      constructCount_eq_zero_of _ (processChunksGo_no_construct chunkBeh
        chunks.length maxChunk d chunks 0)]
  | succ j ih =>
    intro remaining attempt lastErr hlt hbefore hopen
    obtain ⟨r, rfl⟩ : ∃ r, remaining = r + 1 := ⟨remaining - 1, by omega⟩
    have hfail : sessionBeh attempt ≠ none := by
      have h0 := hbefore 0 (by omega)
      simpa using h0
    obtain ⟨e, he⟩ := Option.ne_none_iff_exists'.mp hfail
    simp only [storeChunksGo, he]
    rw [constructCount_cons_construct, constructCount_append,
      constructCount_sleepList]
    have hrec := ih r (attempt + 1) (some e) (by omega)
      (fun k hk => by
        have hb := hbefore (k + 1) (by omega)
        rwa [show attempt + (k + 1) = attempt + 1 + k by omega] at hb)
      (by rwa [show attempt + (j + 1) = attempt + 1 + j by omega] at hopen)
    omega

/-- C2.  In chunked mode each connection attempt constructs exactly one
transport session, regardless of how many chunks there are: if the session
opens on (0-indexed) connection attempt `n`, the whole delivery performs
exactly `n + 1` transport constructions — one per attempt started — for
every chunk list; and the chunk-processing phase (all chunk invokes and all
per-chunk retries) emits no construction at all, i.e. it reuses the single
open session. -/
theorem C2_single_session_invariant (sessionBeh : Nat → Option MCPErr)
    (chunkBeh : Nat → Nat → Bool) (threadId source : List Nat)
    (chunks : List (List Nat)) (totalBytes maxConnRetries maxChunkRetries : Nat)
    (chunkRetryDelay : ℚ) (n : Nat) (hn : n < maxConnRetries)
    (hbefore : ∀ k, k < n → sessionBeh k ≠ none) (hopen : sessionBeh n = none) :
    constructCount (storeChunksSingleConnection sessionBeh chunkBeh threadId
        source chunks totalBytes maxConnRetries maxChunkRetries
        chunkRetryDelay).1 = n + 1 ∧
      ∀ e ∈ (processChunksGo chunkBeh chunks.length maxChunkRetries
          chunkRetryDelay chunks 0).1, e ≠ ConnEvent.construct := by
  constructor
  · exact storeChunksGo_constructCount sessionBeh chunkBeh chunks totalBytes
      maxConnRetries maxChunkRetries chunkRetryDelay n maxConnRetries 0 none hn
      (fun k hk => by simpa using hbefore k hk) (by simpa using hopen)
  · exact processChunksGo_no_construct chunkBeh chunks.length maxChunkRetries
      chunkRetryDelay chunks 0

theorem C2_single_session_invariant_witness :
    constructCount (storeChunksSingleConnection (fun _ => none)
        (fun _ _ => true) [116] [117] [[97], [97], [97], [97], [97]] 5 3 3
        (1 / 2)).1 = 1 :=
  (C2_single_session_invariant (fun _ => none) (fun _ _ => true) [116] [117]
    [[97], [97], [97], [97], [97]] 5 3 3 (1 / 2) 0 (by decide)
    (fun k hk => (Nat.not_lt_zero k hk).elim) rfl).1

/-! ## C3 — aggregation of chunk failures inside one session -/

@[simp]
theorem ChunkRes.isOkRes_ok : ChunkRes.isOkRes ChunkRes.ok = true := rfl

@[simp]
theorem ChunkRes.isOkRes_err (n : Nat) : (ChunkRes.err n).isOkRes = false := rfl

@[simp]
theorem ChunkRes.chunkNumOf_ok : ChunkRes.chunkNumOf ChunkRes.ok = none := rfl

@[simp]
theorem ChunkRes.chunkNumOf_err (n : Nat) :
    (ChunkRes.err n).chunkNumOf = some n := rfl

theorem chunkAttempt_stored_iff (beh : Nat → Bool) (text : List Nat)
    (meta : ChunkMeta) (d : ℚ) (maxR : Nat) :
    ∀ remaining attempt,
      ((chunkAttemptEvents beh text meta d maxR remaining attempt).2 = true) ↔
        ∃ k, k < remaining ∧ beh (attempt + k) = true := by
  intro remaining
  induction remaining with
  | zero =>
    intro a
    simp [chunkAttemptEvents]
  | succ r ih =>
    intro a
    simp only [chunkAttemptEvents]
    split
    · rename_i hba
      constructor
      · intro _
        exact ⟨0, by omega, by simpa using hba⟩
      · intro _
        rfl
    · rename_i hba
      rw [show ((ConnEvent.invoke text (some meta) ::
          (if a < maxR - 1 then [ConnEvent.sleep (delay_for a d)] else [])) ++
          (chunkAttemptEvents beh text meta d maxR r (a + 1)).1,
          (chunkAttemptEvents beh text meta d maxR r (a + 1)).2).2 =
          (chunkAttemptEvents beh text meta d maxR r (a + 1)).2 from rfl]
      rw [ih (a + 1)]
      constructor
      · rintro ⟨k, hk, hbk⟩
        exact ⟨k + 1, by omega, by rwa [show a + (k + 1) = a + 1 + k by omega]⟩
      · rintro ⟨k, hk, hbk⟩
        cases k with
        | zero =>
          rw [Nat.add_zero] at hbk
          exact absurd hbk (by simpa using hba)
        | succ k =>
          exact ⟨k, by omega,
            by rwa [show a + (k + 1) = a + 1 + k by omega] at hbk⟩

theorem chunkAttempt_stored_eq_spec (beh : Nat → Bool) (text : List Nat)
    (meta : ChunkMeta) (d : ℚ) (maxR : Nat) :
    (chunkAttemptEvents beh text meta d maxR maxR 0).2 =
      specChunkStored beh maxR := by
  rw [Bool.eq_iff_iff, chunkAttempt_stored_iff]
  simp [specChunkStored, List.any_eq_true, List.mem_range]

theorem processChunksGo_results (chunkBeh : Nat → Nat → Bool) (total maxR : Nat)
    (d : ℚ) :
    ∀ rest idx,
      (processChunksGo chunkBeh total maxR d rest idx).2 =
        (List.range' (idx + 1) rest.length).map (fun n =>
          if specChunkStored (chunkBeh n) maxR then ChunkRes.ok
          else ChunkRes.err n) := by
  intro rest
  induction rest with
  | nil =>
    intro idx
    simp [processChunksGo]
  | cons c t ih =>
    intro idx
    simp only [processChunksGo, List.length_cons, List.range'_succ, List.map_cons]
    rw [chunkAttempt_stored_eq_spec, ih (idx + 1)]

theorem filter_isOk_map_length (l : List Nat) (p : Nat → Bool) :
    ((l.map (fun n => if p n then ChunkRes.ok else ChunkRes.err n)).filter
      (fun r => r.isOkRes)).length = (l.filter p).length := by
  induction l with
  | nil => rfl
  | cons a t ih =>
    cases hp : p a <;>
      simp [List.filter_cons, hp, ih]

theorem filter_notOk_map (l : List Nat) (p : Nat → Bool) :
    ((l.map (fun n => if p n then ChunkRes.ok else ChunkRes.err n)).filter
      (fun r => !r.isOkRes)) =
      (l.filter (fun n => !p n)).map (fun n => ChunkRes.err n) := by
  induction l with
  | nil => rfl
  | cons a t ih =>
    cases hp : p a <;>
      simp [List.filter_cons, hp, ih]

theorem failed_numbers_map (l : List Nat) (p : Nat → Bool) :
    (((l.map (fun n => if p n then ChunkRes.ok else ChunkRes.err n)).filter
      (fun r => !r.isOkRes)).filterMap ChunkRes.chunkNumOf) =
      l.filter (fun n => !p n) := by
  rw [filter_notOk_map]
  induction (l.filter (fun n => !p n)) with
  | nil => rfl
  | cons a t ih => simp [List.filterMap_cons, ih]

/-- C3.  When the chunked session is established (here: on the first
connection attempt) and some chunks permanently fail their per-chunk retries
while others succeed, `deliver_chunked` does not raise: it returns an
outcome with one result per chunk — so the permanent failure of a chunk never
prevents the remaining chunks from being attempted — whose `chunks_stored`
is the number of chunks with a successful attempt, `chunks_failed` the
number of permanently failed chunks, and `failed_chunk_numbers` exactly the
1-based sequence numbers of the failed chunks, in order. -/
theorem C3_chunk_failure_aggregation (sessionBeh : Nat → Option MCPErr)
    (chunkBeh : Nat → Nat → Bool) (threadId source : List Nat)
    (chunks : List (List Nat)) (totalBytes maxConnRetries maxChunkRetries : Nat)
    (chunkRetryDelay : ℚ) (hconn : 0 < maxConnRetries)
    (hopen : sessionBeh 0 = none) :
    (storeChunksSingleConnection sessionBeh chunkBeh threadId source chunks
        totalBytes maxConnRetries maxChunkRetries chunkRetryDelay).2 =
      Except.ok (specChunkedOutcome chunkBeh chunks.length maxChunkRetries
        totalBytes) ∧
    (specChunkedOutcome chunkBeh chunks.length maxChunkRetries
        totalBytes).chunks_stored =
      ((List.range' 1 chunks.length).filter (fun n =>
        specChunkStored (chunkBeh n) maxChunkRetries)).length ∧
    (specChunkedOutcome chunkBeh chunks.length maxChunkRetries
        totalBytes).chunks_failed =
      ((List.range' 1 chunks.length).filter (fun n =>
        !specChunkStored (chunkBeh n) maxChunkRetries)).length ∧
    (specChunkedOutcome chunkBeh chunks.length maxChunkRetries
        totalBytes).failed_chunk_numbers =
      (List.range' 1 chunks.length).filter (fun n =>
        !specChunkStored (chunkBeh n) maxChunkRetries) ∧
    (specChunkedOutcome chunkBeh chunks.length maxChunkRetries
        totalBytes).total_chunks = chunks.length := by
  obtain ⟨r, rfl⟩ : ∃ r, maxConnRetries = r + 1 := ⟨maxConnRetries - 1, by omega⟩
  refine ⟨?_, ?_, ?_, ?_, rfl⟩
  · simp only [storeChunksSingleConnection, storeChunksGo, hopen]
    rw [processChunksGo_results]
    rfl
  · simp [specChunkedOutcome, mkChunkedOutcome, filter_isOk_map_length]
  · simp [specChunkedOutcome, mkChunkedOutcome, filter_notOk_map]
  · simp [specChunkedOutcome, mkChunkedOutcome, failed_numbers_map]

theorem C3_chunk_failure_aggregation_witness :
    (storeChunksSingleConnection (fun _ => none) (fun n _ => n != 3) [116] [117]
        [[97], [98], [99], [100], [101]] 5 3 3 (1 / 2)).2 =
      Except.ok (specChunkedOutcome (fun n _ => n != 3) 5 3 5) ∧
    (specChunkedOutcome (fun n _ => n != 3) 5 3 5).chunks_stored = 4 ∧
    (specChunkedOutcome (fun n _ => n != 3) 5 3 5).chunks_failed = 1 ∧
    (specChunkedOutcome (fun n _ => n != 3) 5 3 5).failed_chunk_numbers = [3] :=
  ⟨(C3_chunk_failure_aggregation (fun _ => none) (fun n _ => n != 3) [116]
      [117] [[97], [98], [99], [100], [101]] 5 3 3 (1 / 2) (by decide) rfl).1,
    by decide, by decide, by decide⟩

/-! ## C8 — line-ending normalization on every delivery path -/

theorem storeSingleGo_invoke_mem {α : Type} (connectBeh : Nat → Option MCPErr)
    (invokeBeh : Nat → Except MCPErr α) (text : List Nat)
    (metadata : Option ChunkMeta) (maxR : Nat) :
    ∀ remaining attempt lastErr t m,
      ConnEvent.invoke t m ∈
        (storeSingleGo connectBeh invokeBeh text metadata maxR remaining attempt
          lastErr).1 →
      t = normalizeText text ∧ m = metadata := by
  intro remaining
  induction remaining with
  | zero =>
    intro a le t m h
    simp [storeSingleGo] at h
  | succ r ih =>
    intro a le t m h
    simp only [storeSingleGo] at h
    cases hc : connectBeh a with
    | some e =>
      rw [hc] at h
      simp only [List.mem_cons, List.mem_append] at h
      rcases h with h | h
      · exact absurd h (by simp)
      rcases h with h | h
      · split at h <;> simp at h
      · exact ih (a + 1) (some e) t m h
    | none =>
      rw [hc] at h
      cases hi : invokeBeh a with
      | ok resp =>
        rw [hi] at h
        simp only [List.mem_cons, List.mem_singleton] at h
        rcases h with h | h | h
        · exact absurd h (by simp)
        · simp only [ConnEvent.invoke.injEq] at h
          exact ⟨h.1, h.2⟩
        · exact absurd h (by simp)
      | error e =>
        rw [hi] at h
        simp only [List.mem_cons, List.mem_append] at h
        rcases h with h | h
        · exact absurd h (by simp)
        rcases h with h | h
        · simp only [ConnEvent.invoke.injEq] at h
          exact ⟨h.1, h.2⟩
        rcases h with h | h
        · split at h <;> simp at h
        · exact ih (a + 1) (some e) t m h

theorem chunkAttemptEvents_invoke_mem (beh : Nat → Bool) (text : List Nat)
    (meta : ChunkMeta) (d : ℚ) (maxR : Nat) :
    ∀ remaining attempt t m,
      ConnEvent.invoke t m ∈
        (chunkAttemptEvents beh text meta d maxR remaining attempt).1 →
      t = text := by
  intro remaining
  induction remaining with
  | zero =>
    intro a t m h
    simp [chunkAttemptEvents] at h
  | succ r ih =>
    intro a t m h
    simp only [chunkAttemptEvents] at h
    split at h
    · simp only [List.mem_singleton, ConnEvent.invoke.injEq] at h
      exact h.1
    · simp only [List.cons_append, List.mem_cons, List.mem_append] at h
      rcases h with h | h
      · simp only [ConnEvent.invoke.injEq] at h
        exact h.1
      rcases h with h | h
      · split at h <;> simp at h
      · exact ih (a + 1) t m h

theorem processChunksGo_invoke_mem (chunkBeh : Nat → Nat → Bool)
    (total maxR : Nat) (d : ℚ) :
    ∀ rest idx t m,
      ConnEvent.invoke t m ∈ (processChunksGo chunkBeh total maxR d rest idx).1 →
      ∃ c ∈ rest, t = normalizeText c := by
  intro rest
  induction rest with
  | nil =>
    intro idx t m h
    simp [processChunksGo] at h
  | cons c tl ih =>
    intro idx t m h
    simp only [processChunksGo, List.mem_append] at h
    rcases h with h | h
    · exact ⟨c, List.mem_cons_self c tl,
        chunkAttemptEvents_invoke_mem _ _ _ _ _ _ _ t m h⟩
    · obtain ⟨c2, hc2, ht⟩ := ih (idx + 1) t m h
      exact ⟨c2, List.mem_cons_of_mem c hc2, ht⟩

theorem storeChunksGo_invoke_mem (sessionBeh : Nat → Option MCPErr)
    (chunkBeh : Nat → Nat → Bool) (chunks : List (List Nat))
    (totalBytes maxConn maxChunk : Nat) (d : ℚ) :
    ∀ remaining attempt lastErr t m,
      ConnEvent.invoke t m ∈
        (storeChunksGo sessionBeh chunkBeh chunks totalBytes maxConn maxChunk d
          remaining attempt lastErr).1 →
      ∃ c ∈ chunks, t = normalizeText c := by
  intro remaining
  induction remaining with
  | zero =>
    intro a le t m h
    simp [storeChunksGo] at h
  | succ r ih =>
    intro a le t m h
    simp only [storeChunksGo] at h
    cases hc : sessionBeh a with
    | none =>
      rw [hc] at h
      simp only [List.mem_cons] at h
      rcases h with h | h
      · exact absurd h (by simp)
      · exact processChunksGo_invoke_mem _ _ _ _ _ _ t m h
    | some e =>
      rw [hc] at h
      simp only [List.mem_cons, List.mem_append] at h
      rcases h with h | h
      · exact absurd h (by simp)
      rcases h with h | h
      · split at h <;> simp at h
      · exact ih (a + 1) (some e) t m h

/-- C8.  On every delivery path — single-message stdio, each chunk of
chunked mode, and HTTP — the `text` parameter passed to the remote
`store_context` invoke is the result of replacing every CR LF pair and
every lone CR by LF (`normalizeText`), so the transmitted text contains no
carriage-return character (code point 13). -/
theorem C8_line_ending_normalization {α : Type} (connectBeh : Nat → Option MCPErr)
    (invokeBeh : Nat → Except MCPErr α) (sessionBeh : Nat → Option MCPErr)
    (chunkBeh : Nat → Nat → Bool) (threadId source text : List Nat)
    (metadata : Option ChunkMeta) (chunks : List (List Nat))
    (totalBytes maxConnRetries maxChunkRetries maxRetries : Nat)
    (chunkRetryDelay : ℚ) :
    (∀ t m, ConnEvent.invoke t m ∈
        (storeSingleContext connectBeh invokeBeh threadId source text metadata
          maxConnRetries).1 →
      t = normalizeText text ∧ 13 ∉ t) ∧
    (∀ t m, ConnEvent.invoke t m ∈
        (storeChunksSingleConnection sessionBeh chunkBeh threadId source chunks
          totalBytes maxConnRetries maxChunkRetries chunkRetryDelay).1 →
      (∃ c ∈ chunks, t = normalizeText c) ∧ 13 ∉ t) ∧
    (∀ t m, ConnEvent.invoke t m ∈
        (httpStoreContext connectBeh invokeBeh text maxRetries).1 →
      t = normalizeText text ∧ 13 ∉ t) := by
  refine ⟨fun t m h => ?_, fun t m h => ?_, fun t m h => ?_⟩
  · have ht := (storeSingleGo_invoke_mem connectBeh invokeBeh text metadata
      maxConnRetries maxConnRetries 0 none t m h).1
    exact ⟨ht, ht ▸ cr_not_mem_normalizeText text⟩
  · have ht := storeChunksGo_invoke_mem sessionBeh chunkBeh chunks totalBytes
      maxConnRetries maxChunkRetries chunkRetryDelay maxConnRetries 0 none t m h
    obtain ⟨c, hc, rfl⟩ := ht
    exact ⟨⟨c, hc, rfl⟩, cr_not_mem_normalizeText c⟩
  · have ht := httpStoreGo_invoke_mem connectBeh invokeBeh (normalizeText text)
      maxRetries maxRetries 0 none t m h
    exact ⟨ht.1, ht.1 ▸ cr_not_mem_normalizeText text⟩

theorem C8_line_ending_normalization_witness :
    (ConnEvent.invoke [97, 10, 98] none ∈
        (storeSingleContext (fun _ => none)
          (fun _ => (Except.ok true : Except MCPErr Bool)) [116] [117]
          [97, 13, 98] none 3).1) ∧
      (13 : Nat) ∉ [97, 10, 98] :=
  ⟨by decide,
    ((C8_line_ending_normalization (fun _ => none)
        (fun _ => (Except.ok true : Except MCPErr Bool)) (fun _ => none)
        (fun _ _ => true) [116] [117] [97, 13, 98] none [] 0 3 3 3 (1 / 2)).1
      [97, 10, 98] none (by decide)).2⟩

/-! ## C6 — chunk size bound

The decoder speaks arithmetic (`b0 < 0xC0` etc.) while the chunker source
speaks bit tests (`b &&& 0xE0 == 0xC0` etc.); the bridge lemmas below relate
the two on byte ranges, by exhaustive evaluation. -/

theorem land_bridge_ascii : ∀ b < 0x80, b &&& 0x80 = 0 := by decide

theorem land_bridge_two : ∀ b < 0xE0, 0xC0 ≤ b →
    (b &&& 0x80 ≠ 0 ∧ b &&& 0xE0 = 0xC0) := by decide

theorem land_bridge_three : ∀ b < 0xF0, 0xE0 ≤ b →
    (b &&& 0x80 ≠ 0 ∧ b &&& 0xE0 ≠ 0xC0 ∧ b &&& 0xF0 = 0xE0) := by decide

theorem land_bridge_four : ∀ b < 0xF8, 0xF0 ≤ b →
    (b &&& 0x80 ≠ 0 ∧ b &&& 0xE0 ≠ 0xC0 ∧ b &&& 0xF0 ≠ 0xE0 ∧
      b &&& 0xF8 = 0xF0) := by decide

theorem pyCharLen_ascii (b : Nat) (h : b < 0x80) : pyCharLen b = 1 := by
  unfold pyCharLen
  rw [if_pos (land_bridge_ascii b h)]

theorem pyCharLen_two (b : Nat) (h1 : 0xC0 ≤ b) (h2 : b < 0xE0) :
    pyCharLen b = 2 := by
  obtain ⟨hb1, hb2⟩ := land_bridge_two b h2 h1
  unfold pyCharLen
  rw [if_neg hb1, if_pos hb2]

theorem pyCharLen_three (b : Nat) (h1 : 0xE0 ≤ b) (h2 : b < 0xF0) :
    pyCharLen b = 3 := by
  obtain ⟨hb1, hb2, hb3⟩ := land_bridge_three b h2 h1
  unfold pyCharLen
  rw [if_neg hb1, if_neg hb2, if_pos hb3]

theorem pyCharLen_four (b : Nat) (h1 : 0xF0 ≤ b) (h2 : b < 0xF8) :
    pyCharLen b = 4 := by
  obtain ⟨hb1, hb2, hb3, hb4⟩ := land_bridge_four b h2 h1
  unfold pyCharLen
  rw [if_neg hb1, if_neg hb2, if_neg hb3, if_pos hb4]

/-- Decoding one character from `l` yields a code point that re-encodes to
exactly the consumed prefix, consumes between 1 and `l.length` bytes, and
consumes exactly `pyCharLen` of the start byte. -/
theorem utf8DecodeChar?_spec (l : List Nat) (c n : Nat)
    (h : utf8DecodeChar? l = some (c, n)) :
    utf8EncodeChar c = l.take n ∧ 1 ≤ n ∧ n ≤ l.length ∧
      (∀ b0 r, l = b0 :: r → n = pyCharLen b0) := by
  match l with
  | [] => simp [utf8DecodeChar?] at h
  | b0 :: rest =>
    simp only [utf8DecodeChar?] at h
    by_cases h1 : b0 < 0x80
    · rw [if_pos h1] at h
      simp only [Option.some.injEq, Prod.mk.injEq] at h
      obtain ⟨rfl, rfl⟩ := h
      refine ⟨by simp [utf8EncodeChar, if_pos h1], by omega, by simp, ?_⟩
      intro b r he
      injection he with hb1 hb2
      subst hb1
      rw [pyCharLen_ascii b0 h1]
    · rw [if_neg h1] at h
      by_cases h2 : b0 < 0xC0
      · rw [if_pos h2] at h
        exact absurd h (by simp)
      · rw [if_neg h2] at h
        by_cases h3 : b0 < 0xE0
        · rw [if_pos h3] at h
          match rest with
          | [] => exact absurd h (by simp)
          | b1 :: r1 =>
            simp only [] at h
            by_cases hcont : 0x80 ≤ b1 ∧ b1 < 0xC0
            · rw [if_pos hcont] at h
              by_cases hge : 0x80 ≤ (b0 - 0xC0) * 0x40 + (b1 - 0x80)
              · rw [if_pos hge] at h
                simp only [Option.some.injEq, Prod.mk.injEq] at h
                obtain ⟨rfl, rfl⟩ := h
                refine ⟨?_, by omega, by simp, ?_⟩
                · have hc1 : ¬ (b0 - 0xC0) * 0x40 + (b1 - 0x80) < 0x80 := by
                    omega
                  have hc2 : (b0 - 0xC0) * 0x40 + (b1 - 0x80) < 0x800 := by
                    omega
                  simp only [utf8EncodeChar, if_neg hc1, if_pos hc2]
                  have e1 : 0xC0 + ((b0 - 0xC0) * 0x40 + (b1 - 0x80)) / 0x40
                      = b0 := by omega
                  have e2 : 0x80 + ((b0 - 0xC0) * 0x40 + (b1 - 0x80)) % 0x40
                      = b1 := by omega
                  rw [e1, e2]
                  rfl
                · intro b r he
                  injection he with hb1 hb2
                  subst hb1
                  rw [pyCharLen_two b0 (by omega) h3]
              · rw [if_neg hge] at h
                exact absurd h (by simp)
            · rw [if_neg hcont] at h
              exact absurd h (by simp)
        · rw [if_neg h3] at h
          by_cases h4 : b0 < 0xF0
          · rw [if_pos h4] at h
            match rest with
            | [] => exact absurd h (by simp)
            | [b1] => exact absurd h (by simp)
            | b1 :: b2 :: r2 =>
              simp only [] at h
              by_cases hcont : (0x80 ≤ b1 ∧ b1 < 0xC0) ∧ (0x80 ≤ b2 ∧ b2 < 0xC0)
              · rw [if_pos hcont] at h
                by_cases hge : 0x800 ≤ (b0 - 0xE0) * 0x1000 + (b1 - 0x80) * 0x40
                    + (b2 - 0x80) ∧
                    ¬(0xD800 ≤ (b0 - 0xE0) * 0x1000 + (b1 - 0x80) * 0x40
                      + (b2 - 0x80) ∧
                      (b0 - 0xE0) * 0x1000 + (b1 - 0x80) * 0x40 + (b2 - 0x80)
                        < 0xE000)
                · rw [if_pos hge] at h
                  simp only [Option.some.injEq, Prod.mk.injEq] at h
                  obtain ⟨rfl, rfl⟩ := h
                  obtain ⟨hcont1, hcont2⟩ := hcont
                  refine ⟨?_, by omega, by simp, ?_⟩
                  · have hc1 : ¬ (b0 - 0xE0) * 0x1000 + (b1 - 0x80) * 0x40
                        + (b2 - 0x80) < 0x80 := by omega
                    have hc2 : ¬ (b0 - 0xE0) * 0x1000 + (b1 - 0x80) * 0x40
                        + (b2 - 0x80) < 0x800 := by omega
                    have hc3 : (b0 - 0xE0) * 0x1000 + (b1 - 0x80) * 0x40
                        + (b2 - 0x80) < 0x10000 := by omega
                    simp only [utf8EncodeChar, if_neg hc1, if_neg hc2,
                      if_pos hc3]
                    have e1 : 0xE0 + ((b0 - 0xE0) * 0x1000 + (b1 - 0x80) * 0x40
                        + (b2 - 0x80)) / 0x1000 = b0 := by omega
                    have e2 : 0x80 + (((b0 - 0xE0) * 0x1000 + (b1 - 0x80) * 0x40
                        + (b2 - 0x80)) / 0x40) % 0x40 = b1 := by omega
                    have e3 : 0x80 + ((b0 - 0xE0) * 0x1000 + (b1 - 0x80) * 0x40
                        + (b2 - 0x80)) % 0x40 = b2 := by omega
                    rw [e1, e2, e3]
                    rfl
                  · intro b r he
                    injection he with hb1 hb2
                    subst hb1
                    rw [pyCharLen_three b0 (by omega) h4]
                · rw [if_neg hge] at h
                  exact absurd h (by simp)
              · rw [if_neg hcont] at h
                exact absurd h (by simp)
          · rw [if_neg h4] at h
            by_cases h5 : b0 < 0xF8
            · rw [if_pos h5] at h
              match rest with
              | [] => exact absurd h (by simp)
              | [b1] => exact absurd h (by simp)
              | [b1, b2] => exact absurd h (by simp)
              | b1 :: b2 :: b3 :: r3 =>
                simp only [] at h
                by_cases hcont : (0x80 ≤ b1 ∧ b1 < 0xC0) ∧
                    (0x80 ≤ b2 ∧ b2 < 0xC0) ∧ (0x80 ≤ b3 ∧ b3 < 0xC0)
                · rw [if_pos hcont] at h
                  by_cases hge : 0x10000 ≤ (b0 - 0xF0) * 0x40000
                      + (b1 - 0x80) * 0x1000 + (b2 - 0x80) * 0x40 + (b3 - 0x80) ∧
                      (b0 - 0xF0) * 0x40000 + (b1 - 0x80) * 0x1000
                        + (b2 - 0x80) * 0x40 + (b3 - 0x80) < 0x110000
                  · rw [if_pos hge] at h
                    simp only [Option.some.injEq, Prod.mk.injEq] at h
                    obtain ⟨rfl, rfl⟩ := h
                    obtain ⟨hcont1, hcont2, hcont3⟩ := hcont
                    refine ⟨?_, by omega, by simp, ?_⟩
                    · have hc1 : ¬ (b0 - 0xF0) * 0x40000 + (b1 - 0x80) * 0x1000
                          + (b2 - 0x80) * 0x40 + (b3 - 0x80) < 0x80 := by omega
                      have hc2 : ¬ (b0 - 0xF0) * 0x40000 + (b1 - 0x80) * 0x1000
                          + (b2 - 0x80) * 0x40 + (b3 - 0x80) < 0x800 := by omega
                      have hc3 : ¬ (b0 - 0xF0) * 0x40000 + (b1 - 0x80) * 0x1000
                          + (b2 - 0x80) * 0x40 + (b3 - 0x80) < 0x10000 := by
                        omega
                      simp only [utf8EncodeChar, if_neg hc1, if_neg hc2,
                        if_neg hc3]
                      have e1 : 0xF0 + ((b0 - 0xF0) * 0x40000
                          + (b1 - 0x80) * 0x1000 + (b2 - 0x80) * 0x40
                          + (b3 - 0x80)) / 0x40000 = b0 := by omega
                      have e2 : 0x80 + (((b0 - 0xF0) * 0x40000
                          + (b1 - 0x80) * 0x1000 + (b2 - 0x80) * 0x40
                          + (b3 - 0x80)) / 0x1000) % 0x40 = b1 := by omega
                      have e3 : 0x80 + (((b0 - 0xF0) * 0x40000
                          + (b1 - 0x80) * 0x1000 + (b2 - 0x80) * 0x40
                          + (b3 - 0x80)) / 0x40) % 0x40 = b2 := by omega
                      have e4 : 0x80 + ((b0 - 0xF0) * 0x40000
                          + (b1 - 0x80) * 0x1000 + (b2 - 0x80) * 0x40
                          + (b3 - 0x80)) % 0x40 = b3 := by omega
                      rw [e1, e2, e3, e4]
                      rfl
                    · intro b r he
                      injection he with hb1 hb2
                      subst hb1
                      rw [pyCharLen_four b0 (by omega) h5]
                  · rw [if_neg hge] at h
                    exact absurd h (by simp)
                · rw [if_neg hcont] at h
                  exact absurd h (by simp)
            · rw [if_neg h5] at h
              exact absurd h (by simp)

/-- A successful strict decode re-encodes to exactly the input bytes. -/
theorem utf8DecodeGo_encode (fuel : Nat) :
    ∀ l s, utf8DecodeGo fuel l = some s → utf8Encode s = l := by
  induction fuel with
  | zero =>
    intro l s h
    match l with
    | [] =>
      simp only [utf8DecodeGo, Option.some.injEq] at h
      subst h
      rfl
    | b :: t => simp [utf8DecodeGo] at h
  | succ f ih =>
    intro l s h
    match l with
    | [] =>
      simp only [utf8DecodeGo, Option.some.injEq] at h
      subst h
      rfl
    | b :: t =>
      simp only [utf8DecodeGo] at h
      cases hd : utf8DecodeChar? (b :: t) with
      | none =>
        rw [hd] at h
        exact absurd h (by simp)
      | some cn =>
        obtain ⟨c, n⟩ := cn
        rw [hd] at h
        simp only [] at h
        rw [Option.map_eq_some'] at h
        obtain ⟨s1, hs1, hs⟩ := h
        subst hs
        have hspec := utf8DecodeChar?_spec (b :: t) c n hd
        have henc := ih _ _ hs1
        simp only [utf8Encode]
        rw [henc, hspec.1, List.take_append_drop]

theorem utf8Decode?_encode (l s : List Nat) (h : utf8Decode? l = some s) :
    utf8Encode s = l :=
  utf8DecodeGo_encode l.length l s h

theorem pyCharLen_pos (b : Nat) : 1 ≤ pyCharLen b := by
  unfold pyCharLen
  repeat' split
  all_goals omega

/-- Decoding the forced-overage window (the full character starting at the
current position, source lines 536–547) yields a single character. -/
theorem utf8Decode?_single_char (b : Nat) (t : List Nat) (s : List Nat)
    (h : utf8Decode? ((b :: t).take (pyCharLen b)) = some s) : s.length = 1 := by
  obtain ⟨k, hk⟩ : ∃ k, pyCharLen b = k + 1 :=
    ⟨pyCharLen b - 1, by have := pyCharLen_pos b; omega⟩
  rw [hk, List.take_succ_cons] at h
  simp only [utf8Decode?, List.length_cons] at h
  simp only [utf8DecodeGo] at h
  cases hd : utf8DecodeChar? (b :: t.take k) with
  | none =>
    rw [hd] at h
    exact absurd h (by simp)
  | some cn =>
    obtain ⟨c, n⟩ := cn
    rw [hd] at h
    simp only [] at h
    have hspec := utf8DecodeChar?_spec (b :: t.take k) c n hd
    have hn : n = pyCharLen b := hspec.2.2.2 b (t.take k) rfl
    have hlen : (b :: t.take k).length ≤ n := by
      rw [hn, hk]
      simp only [List.length_cons, List.length_take]
      omega
    have hdrop : (b :: t.take k).drop n = [] := List.drop_eq_nil_of_le hlen
    rw [hdrop] at h
    simp only [utf8DecodeGo, Option.map_some', Option.some.injEq] at h
    subst h
    rfl

theorem length_dropWhile_le (p : Nat → Bool) (l : List Nat) :
    (l.dropWhile p).length ≤ l.length := by
  induction l with
  | nil => simp
  | cons a t ih =>
    rw [List.dropWhile_cons]
    split
    · simp only [List.length_cons]
      omega
    · simp

theorem stripTrailingCont_length_le (l : List Nat) :
    (stripTrailingCont l).length ≤ l.length := by
  simp only [stripTrailingCont, List.length_reverse]
  calc (l.reverse.dropWhile isContByte).length
      ≤ l.reverse.length := length_dropWhile_le _ _
    _ = l.length := List.length_reverse l

/-- Every `chunk_bytes` window is within the byte budget, except the
forced-overage window which is exactly one full character. -/
theorem pickChunkBytes_cases (cs b : Nat) (t : List Nat) :
    (pickChunkBytes cs (b :: t)).length ≤ cs ∨
      pickChunkBytes cs (b :: t) = (b :: t).take (pyCharLen b) := by
  simp only [pickChunkBytes]
  split
  · split
    · right
      rfl
    · left
      calc (stripTrailingCont ((b :: t).take cs)).length
          ≤ ((b :: t).take cs).length := stripTrailingCont_length_le _
        _ ≤ cs := by simp [List.length_take]
  · left
    simp [List.length_take]

theorem chunkGo_bound (cs : Nat) :
    ∀ fuel rest s, s ∈ chunkGo cs fuel rest →
      (utf8Encode s).length ≤ cs ∨ s.length = 1 := by
  intro fuel
  induction fuel with
  | zero =>
    intro rest s hs
    match rest with
    | [] => simp [chunkGo] at hs
    | b :: t => simp [chunkGo] at hs
  | succ f ih =>
    intro rest s hs
    match rest with
    | [] => simp [chunkGo] at hs
    | b :: t =>
      simp only [chunkGo] at hs
      cases hd : utf8Decode? (pickChunkBytes cs (b :: t)) with
      | none =>
        rw [hd] at hs
        simp only [] at hs
        exact ih _ s hs
      | some s0 =>
        rw [hd] at hs
        simp only [] at hs
        rcases List.mem_cons.mp hs with rfl | hs2
        · have henc : utf8Encode s = pickChunkBytes cs (b :: t) :=
            utf8Decode?_encode _ s hd
          rcases pickChunkBytes_cases cs b t with hle | heq
          · left
            rw [henc]
            exact hle
          · right
            rw [heq] at hd
            exact utf8Decode?_single_char b t s hd
        · exact ih _ s hs2

/-- C6.  For every input text and every `chunk_size`, each chunk returned by
`_chunk_text_by_bytes` either has UTF-8 encoded byte length at most
`chunk_size` or is a forced-overage chunk holding a single character (whose
encoding may be wider than the limit). -/
theorem C6_chunk_size_bound (text : List Nat) (chunkSize : Nat) (s : List Nat)
    (hs : s ∈ chunkTextByBytes text chunkSize) :
    (utf8Encode s).length ≤ chunkSize ∨ s.length = 1 := by
  unfold chunkTextByBytes at hs
  split at hs
  · simp at hs
  · exact chunkGo_bound chunkSize _ _ s hs

theorem C6_chunk_size_bound_witness :
    ([97, 98] ∈ chunkTextByBytes [97, 98, 99] 2) ∧
      ((utf8Encode [97, 98]).length ≤ 2 ∨ ([97, 98] : List Nat).length = 1) :=
  ⟨by decide, C6_chunk_size_bound [97, 98, 99] 2 [97, 98] (by decide)⟩

end ContextSaver
